import Mathlib

/-!
# Verification of the OllaMark suggestion-diffing and review-session engine

Shallow embedding of the repository's core logic:

* the line segmenter `buildSegments` and review-dialog materializer
  `buildResultText` (DiffReviewModal source file);
* the suggestion builder `buildSuggestions`, the CodeMirror state field
  update (position remapping), and the session operations
  (`acceptSuggestion`, `rejectSuggestion`, `acceptAllSuggestions`,
  `rejectAllSuggestions`, `acceptTitle`, `rejectTitle`, `checkAndResolve`,
  `clearSuggestions`) from `src/ui/InlineDiff.ts`;
* the title filters of both front-ends.

Texts are modelled as `List Char` (JS strings), document positions as `Int`
(JS numbers; the code's defensive `< 0` checks are meaningful), and the
resolution callback as a presence flag plus an explicit log of invocations.

The external `diff` npm library's `diffLines` is not part of the repository;
it is modelled from the spec (line-granularity LCS diff whose parts restitch
both inputs, with identical inputs producing a single unchanged part).
-/

/-- A text is a JS string, modelled as its character list. -/
abbrev JText := List Char

/-- One part of the `diffLines` output: a value (joined lines) plus the
`added` / `removed` flags, as consumed by `buildSegments` and
`buildSuggestions`. -/
structure DiffPart where
  value : JText
  added : Bool
  removed : Bool
deriving DecidableEq, Repr

/-- Modelled from the spec: tokenization of a text into newline-terminated
lines, standing in for the external `diff` library's line tokenizer.
Every line keeps its trailing newline; the empty text is one empty line. -/
def splitLines : JText → List JText
  | [] => [[]]
  | c :: rest =>
    if c = '\n' then [c] :: splitLines rest
    else
      match splitLines rest with
      | l :: ls => (c :: l) :: ls
      | [] => [[c]]

/-- One token-level edit of the line diff. -/
inductive LineEdit where
  | keep (tok : JText)
  | del (tok : JText)
  | ins (tok : JText)
deriving DecidableEq, Repr

/-- Length of a longest common subsequence of two token lists. -/
def lcsLen : List JText → List JText → Nat
  | [], _ => 0
  | _ :: _, [] => 0
  | a :: as, b :: bs =>
    if a = b then 1 + lcsLen as bs
    else max (lcsLen as (b :: bs)) (lcsLen (a :: as) bs)
termination_by xs ys => xs.length + ys.length

/-- Modelled from the spec: a line-granularity LCS (Myers-equivalent) diff,
standing in for the external `diff` library's algorithm. Deletions are
preferred first on ties, matching the library's removed-before-added
convention. -/
def lcsDiff : List JText → List JText → List LineEdit
  | [], [] => []
  | [], b :: bs => .ins b :: lcsDiff [] bs
  | a :: as, [] => .del a :: lcsDiff as []
  | a :: as, b :: bs =>
    if a = b then .keep a :: lcsDiff as bs
    else if lcsLen (a :: as) bs ≤ lcsLen as (b :: bs) then
      .del a :: lcsDiff as (b :: bs)
    else
      .ins b :: lcsDiff (a :: as) bs
termination_by xs ys => xs.length + ys.length

/-- The part corresponding to a single token edit. -/
def LineEdit.toPart : LineEdit → DiffPart
  | .keep tok => ⟨tok, false, false⟩
  | .del tok => ⟨tok, false, true⟩
  | .ins tok => ⟨tok, true, false⟩

/-- Merge consecutive edits that carry the same flags into single parts,
as the external diff library does when building its change objects. -/
def mergeParts : List LineEdit → List DiffPart
  | [] => []
  | e :: es =>
    match mergeParts es with
    | [] => [e.toPart]
    | q :: qs =>
      if e.toPart.added = q.added ∧ e.toPart.removed = q.removed then
        ⟨e.toPart.value ++ q.value, q.added, q.removed⟩ :: qs
      else
        e.toPart :: q :: qs

/-- Modelled from the spec: the external `diffLines(original, modified)`
call shared by both front-ends. -/
def diffLines (originalText modifiedText : JText) : List DiffPart :=
  mergeParts (lcsDiff (splitLines originalText) (splitLines modifiedText))

/-- Segment kinds of the review-dialog segmenter (`DiffSegment.kind`). -/
inductive SegKind where
  | context
  | add
  | remove
  | replace
deriving DecidableEq, Repr

/-- A segment of the review dialog (`DiffSegment` in the modal source). -/
structure DiffSegment where
  kind : SegKind
  original : JText
  modified : JText
  accepted : Bool
deriving DecidableEq, Repr

/-- The loop body of `buildSegments`: walk the diff parts carrying the
`pendingRemoval` accumulator, exactly as the source loop does. -/
def segLoop : List DiffPart → Option JText → List DiffSegment
  | [], none => []
  | [], some pending => [⟨.remove, pending, [], true⟩]
  | p :: ps, pending =>
    if p.added then
      match pending with
      | some pr => ⟨.replace, pr, p.value, true⟩ :: segLoop ps none
      | none => ⟨.add, [], p.value, true⟩ :: segLoop ps none
    else if p.removed then
      match pending with
      | some pr => segLoop ps (some (pr ++ p.value))
      | none => segLoop ps (some p.value)
    else
      match pending with
      | some pr =>
        ⟨.remove, pr, [], true⟩ :: ⟨.context, p.value, p.value, true⟩ :: segLoop ps none
      | none => ⟨.context, p.value, p.value, true⟩ :: segLoop ps none

/-- Function `buildSegments` of the review dialog source: diff the texts and fold the
parts into typed segments. -/
def buildSegments (originalText modifiedText : JText) : List DiffSegment :=
  segLoop (diffLines originalText modifiedText) none

/-- Concatenation of the `original` fields of a segment list. -/
def segsOriginal (segs : List DiffSegment) : JText :=
  (segs.map DiffSegment.original).flatten

/-- Concatenation of the `modified` fields of a segment list. -/
def segsModified (segs : List DiffSegment) : JText :=
  (segs.map DiffSegment.modified).flatten

/-- The `original`-side content of a part list: values of parts that are
not additions, in order. -/
def partsOriginal (parts : List DiffPart) : JText :=
  (parts.map fun p => if p.added then [] else p.value).flatten

/-- The `modified`-side content of a part list: values of parts that are
not removals, in order. -/
def partsModified (parts : List DiffPart) : JText :=
  (parts.map fun p => if p.removed then [] else p.value).flatten

/-- The `original`-side content of a token edit list. -/
def editsOriginal (es : List LineEdit) : JText :=
  (es.map fun e => match e with
    | .keep tok => tok
    | .del tok => tok
    | .ins _ => []).flatten

/-- The `modified`-side content of a token edit list. -/
def editsModified (es : List LineEdit) : JText :=
  (es.map fun e => match e with
    | .keep tok => tok
    | .del _ => []
    | .ins tok => tok).flatten

/-- Parts produced by the diff never carry both flags; `buildSegments`
checks `added` first, so the modified-side restitch needs this. -/
def PartsWellFormed (parts : List DiffPart) : Prop :=
  ∀ p ∈ parts, p.added = true → p.removed = false

/-- The review-dialog result materializer `DiffReviewModal.buildResultText`:
fold over the snapshot segments, appending per-kind content. -/
def buildResultText (segs : List DiffSegment) : JText :=
  segs.foldl
    (fun output s =>
      output ++
        match s.kind with
        | .context => s.original
        | .replace => if s.accepted then s.modified else s.original
        | .add => if s.accepted then s.modified else []
        | .remove => if s.accepted then [] else s.original)
    []

/-- The contribution of one segment to the final text, written from the
spec's words: context → always its text; replace → modified if accepted else
original; insert → modified if accepted else empty; delete → empty if
accepted else original. -/
def specSegmentText (s : DiffSegment) : JText :=
  match s.kind with
  | .context => s.original
  | .replace => if s.accepted then s.modified else s.original
  | .add => if s.accepted then s.modified else []
  | .remove => if s.accepted then [] else s.original

/-- One live suggestion (`InlineSuggestion` in InlineDiff.ts); `from`/`to`
are spelled `fromPos`/`toPos` because `from` is reserved here. -/
structure InlineSuggestion where
  id : String
  fromPos : Int
  toPos : Int
  originalText : JText
  suggestedText : JText
deriving DecidableEq, Repr

/-- The `pendingRemoval` accumulator of `buildSuggestions`. -/
structure PendingRemovalState where
  text : JText
  fromPos : Int
  toPos : Int
deriving DecidableEq, Repr

/-- Suggestion ids: `suggestion-${idCounter++}`. -/
def mkSuggestionId (n : Nat) : String :=
  "suggestion-" ++ toString n

/-- The loop of `buildSuggestions`: walk the diff parts with the cursor
`currentPos`, the id counter and the `pendingRemoval` accumulator, exactly
as the source loop (including the bounds validation on emission and the
trailing-removal flush). -/
def suggLoop : List DiffPart → Int → Int → Int → Nat → Option PendingRemovalState →
    List InlineSuggestion
  | [], selS, selE, _, ctr, pending =>
    match pending with
    | some pr =>
      if selS ≤ pr.fromPos ∧ pr.toPos ≤ selE then
        [⟨mkSuggestionId ctr, pr.fromPos, pr.toPos, pr.text, []⟩]
      else []
    | none => []
  | p :: ps, selS, selE, pos, ctr, pending =>
    if p.added then
      match pending with
      | some pr =>
        if selS ≤ pr.fromPos ∧ pr.toPos ≤ selE then
          ⟨mkSuggestionId ctr, pr.fromPos, pr.toPos, pr.text, p.value⟩ ::
            suggLoop ps selS selE pos (ctr + 1) none
        else suggLoop ps selS selE pos ctr none
      | none =>
        if selS ≤ pos ∧ pos ≤ selE then
          ⟨mkSuggestionId ctr, pos, pos, [], p.value⟩ ::
            suggLoop ps selS selE pos (ctr + 1) none
        else suggLoop ps selS selE pos ctr none
    else if p.removed then
      match pending with
      | some pr =>
        suggLoop ps selS selE (pos + p.value.length) ctr
          (some ⟨pr.text ++ p.value, pr.fromPos, pos + p.value.length⟩)
      | none =>
        suggLoop ps selS selE (pos + p.value.length) ctr
          (some ⟨p.value, pos, pos + p.value.length⟩)
    else
      match pending with
      | some pr =>
        if selS ≤ pr.fromPos ∧ pr.toPos ≤ selE then
          ⟨mkSuggestionId ctr, pr.fromPos, pr.toPos, pr.text, []⟩ ::
            suggLoop ps selS selE (pos + p.value.length) (ctr + 1) none
        else suggLoop ps selS selE (pos + p.value.length) ctr none
      | none => suggLoop ps selS selE (pos + p.value.length) ctr none

/-- Function `buildSuggestions(originalText, modifiedText, selectionStart,
selectionEnd)` from InlineDiff.ts: diff, walk, then filter out suggestions
whose original and suggested text coincide. -/
def buildSuggestions (originalText modifiedText : JText)
    (selectionStart selectionEnd : Int) : List InlineSuggestion :=
  (suggLoop (diffLines originalText modifiedText) selectionStart selectionEnd
      selectionStart 0 none).filter
    (fun s => s.originalText ≠ s.suggestedText)

/-- Lower bound on the `from` of every suggestion still to be emitted. -/
def suggLowerBound (pending : Option PendingRemovalState) (pos : Int) : Int :=
  match pending with
  | some pr => pr.fromPos
  | none => pos

/-- The suggestion-session state field contents (`SuggestionState` in
InlineDiff.ts). The resolve callback is modelled by a presence flag; its
invocations are logged explicitly by the operations below. -/
structure SuggestionState where
  suggestions : List InlineSuggestion
  proposedTitle : Option JText
  currentTitle : Option JText
  resolveCallback : Bool
deriving DecidableEq, Repr

/-- One replacement of a document range (`{from, to, insert}` change spec
passed to `view.dispatch`). -/
structure ChangeSpec where
  cFrom : Int
  cTo : Int
  insert : JText
deriving DecidableEq, Repr

/-- Apply one range replacement to the document text. -/
def applyChange (doc : JText) (c : ChangeSpec) : JText :=
  doc.take c.cFrom.toNat ++ c.insert ++ doc.drop c.cTo.toNat

/-- Apply the changes of one transaction in the order given (the callers
pass disjoint ranges sorted from highest `from` to lowest, so sequential
application matches the editor's combined edit). -/
def applyChanges (doc : JText) (cs : List ChangeSpec) : JText :=
  cs.foldl applyChange doc

/-- CodeMirror position mapping through one replacement (default
association): positions before the change are fixed, positions after it are
shifted by the length delta, positions inside the deleted span collapse to
its start. -/
def mapPos (c : ChangeSpec) (p : Int) : Int :=
  if p ≤ c.cFrom then p
  else if c.cTo ≤ p then p + (c.insert.length : Int) - (c.cTo - c.cFrom)
  else c.cFrom

/-- Mapping through a whole transaction (`tr.changes.mapPos`). -/
def mapPosThrough (cs : List ChangeSpec) (p : Int) : Int :=
  cs.foldl (fun q c => mapPos c q) p

/-- The document-change block of `suggestionStateField.update` (lines
109-134): remap both endpoints of every live suggestion, drop a suggestion
when an endpoint lands out of bounds, keep it (unclamped) otherwise. -/
def remapSuggestions (suggs : List InlineSuggestion) (cs : List ChangeSpec)
    (docLength : Int) : List InlineSuggestion :=
  suggs.filterMap fun s =>
    let newFrom := mapPosThrough cs s.fromPos
    let newTo := mapPosThrough cs s.toPos
    if newFrom < 0 ∨ newTo < 0 ∨ newFrom > docLength ∨ newTo > docLength then
      none
    else
      some { s with fromPos := newFrom, toPos := newTo }

/-- The state effects dispatched by the session operations. -/
inductive SuggEffect where
  | setAll (payload : SuggestionState)
  | accept (id : String)
  | reject (id : String)
  | acceptAllE
  | rejectAllE
deriving DecidableEq, Repr

/-- One step of the effects loop of `suggestionStateField.update`. -/
def applyEffect (st : SuggestionState) (e : SuggEffect) : SuggestionState :=
  match e with
  | .setAll payload => payload
  | .accept id => { st with suggestions := st.suggestions.filter (fun s => s.id ≠ id) }
  | .reject id => { st with suggestions := st.suggestions.filter (fun s => s.id ≠ id) }
  | .acceptAllE => ⟨[], none, none, false⟩
  | .rejectAllE => ⟨[], none, none, false⟩

/-- Update function `suggestionStateField.update`: process the effects, then, if the
document changed and suggestions remain, remap them. -/
def updateField (st : SuggestionState) (effects : List SuggEffect)
    (changes : List ChangeSpec) (newDocLength : Int) : SuggestionState :=
  let st1 := effects.foldl applyEffect st
  if changes.isEmpty ∨ st1.suggestions.isEmpty then st1
  else { st1 with suggestions := remapSuggestions st1.suggestions changes newDocLength }

/-- The whole editor-side state owned by one review: the document, the
state field, and the module-level title globals of InlineDiff.ts. -/
structure EditorSession where
  doc : JText
  field : SuggestionState
  titleAccepted : Bool
  titleRejected : Bool
  storedProposedTitle : Option JText
deriving DecidableEq, Repr

/-- A resolved review outcome (`InlineDiffOutcome`). -/
structure Outcome where
  text : JText
  renameTo : Option JText
deriving DecidableEq, Repr

/-- Dispatch `view.dispatch({changes, effects})`: the field update sees the effects
first and then the document change, with the new document's length. -/
def dispatchTr (es : EditorSession) (changes : List ChangeSpec)
    (effects : List SuggEffect) : EditorSession :=
  let newDoc := applyChanges es.doc changes
  { es with
    doc := newDoc
    field := updateField es.field effects changes (newDoc.length : Int) }

/-- Resolution check `checkAndResolve`: if no suggestion is live, no title is pending, and a
callback is registered, invoke it (logged) with the current document text
and the stored title when accepted, then reset the title globals. The
callback is NOT cleared from the state field. -/
def checkAndResolveOp (es : EditorSession) : EditorSession × List (Option Outcome) :=
  if es.field.suggestions.isEmpty ∧ es.field.proposedTitle.isNone ∧
      es.field.resolveCallback then
    ({ es with titleAccepted := false, titleRejected := false,
               storedProposedTitle := none },
     [some ⟨es.doc, if es.titleAccepted then es.storedProposedTitle else none⟩])
  else (es, [])

/-- Operation `rejectSuggestion(view, id)`. -/
def rejectSuggestionOp (es : EditorSession) (id : String) :
    EditorSession × List (Option Outcome) :=
  checkAndResolveOp (dispatchTr es [] [.reject id])

/-- Operation `acceptSuggestion(view, id)`: missing id is a silent no-op; an invalid
range downgrades to a rejection; a valid one applies the single replacement
and removes the suggestion. -/
def acceptSuggestionOp (es : EditorSession) (id : String) :
    EditorSession × List (Option Outcome) :=
  match es.field.suggestions.find? (fun s => s.id = id) with
  | none => (es, [])
  | some sugg =>
    let docLength : Int := es.doc.length
    if sugg.fromPos < 0 ∨ sugg.toPos < 0 ∨ sugg.fromPos > docLength ∨
        sugg.toPos > docLength ∨ sugg.fromPos > sugg.toPos then
      checkAndResolveOp (dispatchTr es [] [.reject id])
    else
      checkAndResolveOp
        (dispatchTr es [⟨sugg.fromPos, sugg.toPos, sugg.suggestedText⟩] [.accept id])

/-- Stable insertion of one suggestion into a list sorted by descending
`from` (the JS stable `sort((a, b) => b.from - a.from)`). -/
def insertDescByFrom (s : InlineSuggestion) :
    List InlineSuggestion → List InlineSuggestion
  | [] => [s]
  | t :: ts =>
    if t.fromPos < s.fromPos then s :: t :: ts
    else t :: insertDescByFrom s ts

/-- Stable sort by descending `from`. -/
def sortDescByFrom : List InlineSuggestion → List InlineSuggestion
  | [] => []
  | s :: ss => insertDescByFrom s (sortDescByFrom ss)

/-- The in-bounds filter of `acceptAllSuggestions`. -/
def validForDoc (docLength : Int) (s : InlineSuggestion) : Bool :=
  decide (0 ≤ s.fromPos ∧ 0 ≤ s.toPos ∧ s.fromPos ≤ docLength ∧
    s.toPos ≤ docLength ∧ s.fromPos ≤ s.toPos)

/-- Operation `acceptAllSuggestions(view)`: filter valid suggestions, sort their
replacements from highest `from` to lowest, dispatch them with the
clear-all effect, accept a pending title, fire the callback with the new
document text, then reset the title globals. -/
def acceptAllSuggestionsOp (es : EditorSession) :
    EditorSession × List (Option Outcome) :=
  let st := es.field
  let docLength : Int := es.doc.length
  let validSuggestions := st.suggestions.filter (validForDoc docLength)
  let sortedSuggestions := sortDescByFrom validSuggestions
  let changes := sortedSuggestions.map fun s =>
    ChangeSpec.mk s.fromPos s.toPos s.suggestedText
  let es1 := dispatchTr es changes [.acceptAllE]
  let es2 :=
    match st.proposedTitle with
    | some _ => { es1 with titleAccepted := true, storedProposedTitle := st.proposedTitle }
    | none => es1
  let log :=
    if st.resolveCallback then
      [some ⟨es2.doc,
        if es2.titleAccepted then
          match es2.storedProposedTitle with
          | some v => some v
          | none => st.proposedTitle
        else none⟩]
    else []
  ({ es2 with titleAccepted := false, titleRejected := false,
              storedProposedTitle := none }, log)

/-- Operation `rejectAllSuggestions(view)`: clear the set, fire the callback with
`null`, reset the title globals; no document change. -/
def rejectAllSuggestionsOp (es : EditorSession) :
    EditorSession × List (Option Outcome) :=
  let st := es.field
  let es1 := dispatchTr es [] [.rejectAllE]
  let log := if st.resolveCallback then [none] else []
  ({ es1 with titleAccepted := false, titleRejected := false,
              storedProposedTitle := none }, log)

/-- Operation `clearSuggestions(view)`: dispatch the clear-all effect only; the
callback is neither invoked nor transferred. -/
def clearSuggestionsOp (es : EditorSession) :
    EditorSession × List (Option Outcome) :=
  (dispatchTr es [] [.rejectAllE], [])

/-- Operation `acceptTitle(view)`. -/
def acceptTitleOp (es : EditorSession) : EditorSession × List (Option Outcome) :=
  let st := es.field
  let es0 := { es with storedProposedTitle := st.proposedTitle,
                       titleAccepted := true, titleRejected := false }
  let es1 := dispatchTr es0 []
    [.setAll ⟨st.suggestions, none, st.currentTitle, st.resolveCallback⟩]
  checkAndResolveOp es1

/-- Operation `rejectTitle(view)`. -/
def rejectTitleOp (es : EditorSession) : EditorSession × List (Option Outcome) :=
  let st := es.field
  let es0 := { es with titleAccepted := false, titleRejected := true,
                       storedProposedTitle := none }
  let es1 := dispatchTr es0 []
    [.setAll ⟨st.suggestions, none, st.currentTitle, st.resolveCallback⟩]
  checkAndResolveOp es1

/-- The user-level session operations. -/
inductive SessionOp where
  | acceptOne (id : String)
  | rejectOne (id : String)
  | acceptAll
  | rejectAll
  | acceptTitleOp'
  | rejectTitleOp'
  | clearOp
deriving DecidableEq, Repr

/-- Run one operation. -/
def runOp (es : EditorSession) : SessionOp → EditorSession × List (Option Outcome)
  | .acceptOne id => acceptSuggestionOp es id
  | .rejectOne id => rejectSuggestionOp es id
  | .acceptAll => acceptAllSuggestionsOp es
  | .rejectAll => rejectAllSuggestionsOp es
  | .acceptTitleOp' => acceptTitleOp es
  | .rejectTitleOp' => rejectTitleOp es
  | .clearOp => clearSuggestionsOp es

/-- Run a sequence of operations, concatenating the callback-invocation
logs in order. -/
def runOps (es : EditorSession) : List SessionOp → EditorSession × List (Option Outcome)
  | [] => (es, [])
  | op :: ops =>
    let r := runOp es op
    let rest := runOps r.1 ops
    (rest.1, r.2 ++ rest.2)

/-- Concrete data for the C2 witness: one suggestion `[0,1)` and the
self-applying edit replacing `[0,1)` with two characters. -/
def wSuggs : List InlineSuggestion := [⟨"suggestion-0", 0, 1, ['a'], ['b', 'c']⟩]

def wChanges : List ChangeSpec := [⟨0, 1, ['b', 'c']⟩]

def wRemapped : InlineSuggestion := ⟨"suggestion-0", 0, 2, ['a'], ['b', 'c']⟩

/-- Concrete data for the C3 witness: the sample session holds one
suggestion `[1,2)` over the document `abc`. -/
def sampleSuggestion : InlineSuggestion := ⟨"suggestion-0", 1, 2, ['b'], ['x', 'y']⟩

def sampleSession : EditorSession :=
  ⟨['a', 'b', 'c'], ⟨[sampleSuggestion], none, none, true⟩, false, false, none⟩

/-- Concrete data for the C4 witness: one valid and one out-of-bounds
suggestion plus a pending title over the document `abc`. -/
def sampleTitledSession : EditorSession :=
  ⟨['a', 'b', 'c'],
   ⟨[⟨"suggestion-0", 1, 2, ['b'], ['x', 'y']⟩,
     ⟨"suggestion-1", 2, 9, ['c'], ['z']⟩],
    some ['T'], some ['C'], true⟩,
   false, false, none⟩

/-- JS whitespace (the ASCII core relevant to titles). -/
def isJsWhitespace (c : Char) : Bool :=
  decide (c = ' ' ∨ c = '\t' ∨ c = '\n' ∨ c = '\r' ∨ c = '\x0b' ∨ c = '\x0c')

/-- JS `String.prototype.trim`. -/
def jsTrim (t : JText) : JText :=
  ((t.dropWhile isJsWhitespace).reverse.dropWhile isJsWhitespace).reverse

/-- The inline front-end's title filter (`showInlineSuggestions`): keep a
proposed title only when non-empty after trimming and different from the
TRIMMED current title; the kept value is the trimmed proposal. -/
def effectiveProposedTitle (proposedTitle currentTitle : Option JText) :
    Option JText :=
  match proposedTitle with
  | none => none
  | some p =>
    if p = [] then none
    else if jsTrim p = [] then none
    else if currentTitle.map jsTrim = some (jsTrim p) then none
    else some (jsTrim p)

/-- The trim-and-nonempty step of the modal's title filter. -/
def modalBase (newTitle : Option JText) : Option JText :=
  match newTitle with
  | none => none
  | some p =>
    if p = [] then none
    else if jsTrim p = [] then none
    else some (jsTrim p)

/-- The modal's title filter (`DiffReviewModal` constructor): keep a
proposed title only when non-empty after trimming; then discard it when it
equals the UNTRIMMED current title (the comparison only runs for a truthy,
i.e. non-empty, current title). -/
def modalProposedTitle (newTitle currentTitle : Option JText) : Option JText :=
  match modalBase newTitle with
  | none => none
  | some p =>
    match currentTitle with
    | none => some p
    | some c =>
      if c = [] then some p
      else if p = c then none
      else some p

theorem splitLines_flatten (t : JText) : (splitLines t).flatten = t := by
  induction t with
  | nil => rfl
  | cons c rest ih =>
    by_cases h : c = '\n'
    · simp [splitLines, h, List.flatten]
      simpa [h] using ih
    · simp only [splitLines, if_neg h]
      cases hs : splitLines rest with
      | nil => simp [hs, List.flatten] at ih ⊢; simpa [hs] using ih
      | cons l ls =>
        simp only [List.flatten]
        rw [hs] at ih
        simp only [List.flatten] at ih
        simp [List.cons_append, ih]

theorem splitLines_ne_nil (t : JText) : splitLines t ≠ [] := by
  cases t with
  | nil => simp [splitLines]
  | cons c rest =>
    by_cases h : c = '\n'
    · simp [splitLines, h]
    · simp only [splitLines, if_neg h]
      cases hs : splitLines rest with
      | nil => simp
      | cons l ls => simp

theorem lcsDiff_original (xs ys : List JText) :
    editsOriginal (lcsDiff xs ys) = xs.flatten := by
  induction xs, ys using lcsDiff.induct with
  | case1 => simp [lcsDiff, editsOriginal]
  | case2 b bs ih =>
    simp only [lcsDiff, editsOriginal] at ih ⊢
    simpa using ih
  | case3 a as ih =>
    simp only [lcsDiff, editsOriginal] at ih ⊢
    simp_all
  | case4 as b bs ih =>
    simp only [lcsDiff, if_pos rfl, editsOriginal] at ih ⊢
    simp_all
  | case5 a as b bs h hle ih =>
    simp only [lcsDiff, if_neg h, if_pos hle, editsOriginal] at ih ⊢
    simp_all
  | case6 a as b bs h hle ih =>
    simp only [lcsDiff, if_neg h, if_neg hle, editsOriginal] at ih ⊢
    simpa using ih

theorem lcsDiff_modified (xs ys : List JText) :
    editsModified (lcsDiff xs ys) = ys.flatten := by
  induction xs, ys using lcsDiff.induct with
  | case1 => simp [lcsDiff, editsModified]
  | case2 b bs ih =>
    simp only [lcsDiff, editsModified] at ih ⊢
    simp_all
  | case3 a as ih =>
    simp only [lcsDiff, editsModified] at ih ⊢
    simpa using ih
  | case4 as b bs ih =>
    simp only [lcsDiff, if_pos rfl, editsModified] at ih ⊢
    simp_all
  | case5 a as b bs h hle ih =>
    simp only [lcsDiff, if_neg h, if_pos hle, editsModified] at ih ⊢
    simpa using ih
  | case6 a as b bs h hle ih =>
    simp only [lcsDiff, if_neg h, if_neg hle, editsModified] at ih ⊢
    simp_all

theorem mergeParts_original (es : List LineEdit) :
    partsOriginal (mergeParts es) = editsOriginal es := by
  induction es with
  | nil => rfl
  | cons e es ih =>
    cases hm : mergeParts es with
    | nil =>
      rw [hm] at ih
      cases e <;>
        simp_all [mergeParts, hm, partsOriginal, editsOriginal, LineEdit.toPart]
    | cons q qs =>
      rw [hm] at ih
      simp only [mergeParts, hm]
      by_cases hf : e.toPart.added = q.added ∧ e.toPart.removed = q.removed
      · rw [if_pos hf]
        obtain ⟨hf1, hf2⟩ := hf
        cases q with
        | mk qv qa qr =>
          cases e <;>
            (simp only [LineEdit.toPart] at hf1 hf2; subst hf1; subst hf2;
             simp_all [partsOriginal, editsOriginal, LineEdit.toPart])
      · rw [if_neg hf]
        cases e <;>
          simp_all [partsOriginal, editsOriginal, LineEdit.toPart]

theorem mergeParts_modified (es : List LineEdit) :
    partsModified (mergeParts es) = editsModified es := by
  induction es with
  | nil => rfl
  | cons e es ih =>
    cases hm : mergeParts es with
    | nil =>
      rw [hm] at ih
      cases e <;>
        simp_all [mergeParts, hm, partsModified, editsModified, LineEdit.toPart]
    | cons q qs =>
      rw [hm] at ih
      simp only [mergeParts, hm]
      by_cases hf : e.toPart.added = q.added ∧ e.toPart.removed = q.removed
      · rw [if_pos hf]
        obtain ⟨hf1, hf2⟩ := hf
        cases q with
        | mk qv qa qr =>
          cases e <;>
            (simp only [LineEdit.toPart] at hf1 hf2; subst hf1; subst hf2;
             simp_all [partsModified, editsModified, LineEdit.toPart])
      · rw [if_neg hf]
        cases e <;>
          simp_all [partsModified, editsModified, LineEdit.toPart]

theorem diffLines_original (o m : JText) : partsOriginal (diffLines o m) = o := by
  rw [diffLines, mergeParts_original, lcsDiff_original, splitLines_flatten]

theorem diffLines_modified (o m : JText) : partsModified (diffLines o m) = m := by
  rw [diffLines, mergeParts_modified, lcsDiff_modified, splitLines_flatten]

theorem segLoop_original (parts : List DiffPart) (pending : Option JText) :
    segsOriginal (segLoop parts pending) =
      (pending.getD []) ++ partsOriginal parts := by
  induction parts generalizing pending with
  | nil =>
    cases pending <;> simp [segLoop, segsOriginal, partsOriginal]
  | cons p ps ih =>
    by_cases ha : p.added = true
    · cases pending with
      | some pr =>
        simp only [segLoop, if_pos ha]
        simp only [segsOriginal, List.map_cons, List.flatten_cons] at ih ⊢
        rw [ih none]
        simp [partsOriginal, ha]
      | none =>
        simp only [segLoop, if_pos ha]
        simp only [segsOriginal, List.map_cons, List.flatten_cons] at ih ⊢
        rw [ih none]
        simp [partsOriginal, ha]
    · by_cases hr : p.removed = true
      · cases pending with
        | some pr =>
          simp only [segLoop, if_neg ha, if_pos hr]
          rw [ih (some (pr ++ p.value))]
          simp [partsOriginal, ha]
        | none =>
          simp only [segLoop, if_neg ha, if_pos hr]
          rw [ih (some p.value)]
          simp [partsOriginal, ha]
      · cases pending with
        | some pr =>
          simp only [segLoop, if_neg ha, if_neg hr]
          simp only [segsOriginal, List.map_cons, List.flatten_cons] at ih ⊢
          rw [ih none]
          simp [partsOriginal, ha]
        | none =>
          simp only [segLoop, if_neg ha, if_neg hr]
          simp only [segsOriginal, List.map_cons, List.flatten_cons] at ih ⊢
          rw [ih none]
          simp [partsOriginal, ha]

theorem mergeParts_wellFormed (es : List LineEdit) :
    PartsWellFormed (mergeParts es) := by
  induction es with
  | nil => intro p hp; simp [mergeParts] at hp
  | cons e es ih =>
    intro p hp
    cases hm : mergeParts es with
    | nil =>
      simp only [mergeParts, hm] at hp
      simp at hp
      subst hp
      cases e <;> simp [LineEdit.toPart]
    | cons q qs =>
      simp only [mergeParts, hm] at hp
      by_cases hf : e.toPart.added = q.added ∧ e.toPart.removed = q.removed
      · rw [if_pos hf] at hp
        simp at hp
        rcases hp with hp | hp
        · subst hp
          intro hq
          exact ih q (by simp [hm]) hq
        · exact ih p (by simp [hm, hp])
      · rw [if_neg hf] at hp
        simp at hp
        rcases hp with hp | hp | hp
        · subst hp
          cases e <;> simp [LineEdit.toPart]
        · subst hp
          exact ih p (by simp [hm])
        · exact ih p (by simp [hm, hp])

theorem segLoop_modified (parts : List DiffPart) (pending : Option JText)
    (hw : PartsWellFormed parts) :
    segsModified (segLoop parts pending) = partsModified parts := by
  induction parts generalizing pending with
  | nil =>
    cases pending <;> simp [segLoop, segsModified, partsModified]
  | cons p ps ih =>
    have hwp : p.added = true → p.removed = false := hw p (by simp)
    have hws : PartsWellFormed ps := fun q hq => hw q (by simp [hq])
    by_cases ha : p.added = true
    · cases pending with
      | some pr =>
        simp only [segLoop, if_pos ha]
        simp only [segsModified, List.map_cons, List.flatten_cons] at ih ⊢
        rw [ih none hws]
        simp [partsModified, hwp ha]
      | none =>
        simp only [segLoop, if_pos ha]
        simp only [segsModified, List.map_cons, List.flatten_cons] at ih ⊢
        rw [ih none hws]
        simp [partsModified, hwp ha]
    · by_cases hr : p.removed = true
      · cases pending with
        | some pr =>
          simp only [segLoop, if_neg ha, if_pos hr]
          rw [ih (some (pr ++ p.value)) hws]
          simp [partsModified, hr]
        | none =>
          simp only [segLoop, if_neg ha, if_pos hr]
          rw [ih (some p.value) hws]
          simp [partsModified, hr]
      · cases pending with
        | some pr =>
          simp only [segLoop, if_neg ha, if_neg hr]
          simp only [segsModified, List.map_cons, List.flatten_cons] at ih ⊢
          rw [ih none hws]
          simp [partsModified, hr]
        | none =>
          simp only [segLoop, if_neg ha, if_neg hr]
          simp only [segsModified, List.map_cons, List.flatten_cons] at ih ⊢
          rw [ih none hws]
          simp [partsModified, hr]

/-- C5: for every pair of texts, concatenating the segments' `original`
fields reproduces the original text exactly, and concatenating the
`modified` fields reproduces the modified text exactly. -/
theorem buildSegments_coverage (originalText modifiedText : JText) :
    segsOriginal (buildSegments originalText modifiedText) = originalText ∧
    segsModified (buildSegments originalText modifiedText) = modifiedText := by
  have hw : PartsWellFormed (diffLines originalText modifiedText) := by
    rw [diffLines]; exact mergeParts_wellFormed _
  constructor
  · rw [buildSegments, segLoop_original, diffLines_original]; rfl
  · rw [buildSegments, segLoop_modified _ _ hw, diffLines_modified]

/-- C5: helper naming for the identity diff; `lcsDiff` on identical token
lists keeps every token. -/
theorem lcsDiff_self (xs : List JText) : lcsDiff xs xs = xs.map .keep := by
  induction xs with
  | nil => simp [lcsDiff]
  | cons a as ih => simp [lcsDiff, ih]

theorem mergeParts_keeps (x : JText) (xs : List JText) :
    mergeParts ((x :: xs).map .keep) = [⟨(x :: xs).flatten, false, false⟩] := by
  induction xs generalizing x with
  | nil => simp [mergeParts, LineEdit.toPart]
  | cons y ys ih =>
    simp only [List.map_cons] at ih ⊢
    rw [mergeParts, ih y]
    simp [LineEdit.toPart]

theorem diffLines_self (t : JText) : diffLines t t = [⟨t, false, false⟩] := by
  cases hs : splitLines t with
  | nil => exact absurd hs (splitLines_ne_nil t)
  | cons l ls =>
    rw [diffLines, lcsDiff_self, hs, mergeParts_keeps]
    rw [← hs, splitLines_flatten]

theorem buildResultText_foldl (segs : List DiffSegment) (acc : JText) :
    segs.foldl
      (fun output s =>
        output ++
          match s.kind with
          | .context => s.original
          | .replace => if s.accepted then s.modified else s.original
          | .add => if s.accepted then s.modified else []
          | .remove => if s.accepted then [] else s.original)
      acc = acc ++ (segs.map specSegmentText).flatten := by
  induction segs generalizing acc with
  | nil => simp
  | cons s ss ih =>
    simp only [List.foldl_cons, List.map_cons, List.flatten_cons]
    rw [ih]
    simp [specSegmentText, List.append_assoc]

/-- C8: for every segment list and acceptance assignment, the materialized
final text is the in-order concatenation of per-kind contributions: context
always contributes its text, replace contributes modified iff accepted,
insert contributes modified iff accepted (else nothing), delete contributes
nothing iff accepted (else original). -/
theorem buildResultText_spec (segs : List DiffSegment) :
    buildResultText segs = (segs.map specSegmentText).flatten := by
  rw [buildResultText, buildResultText_foldl]
  rfl

theorem suggLoop_bounds (parts : List DiffPart) (selS selE : Int) (pos : Int)
    (ctr : Nat) (pending : Option PendingRemovalState)
    (hp : ∀ pr, pending = some pr → pr.fromPos ≤ pr.toPos ∧ pr.toPos = pos) :
    (∀ s ∈ suggLoop parts selS selE pos ctr pending,
        s.fromPos ≤ s.toPos ∧ suggLowerBound pending pos ≤ s.fromPos) ∧
    List.Pairwise (fun a b => a.toPos ≤ b.fromPos)
      (suggLoop parts selS selE pos ctr pending) := by
  induction parts generalizing pos ctr pending with
  | nil =>
    cases pending with
    | none => simp [suggLoop]
    | some pr =>
      obtain ⟨h1, h2⟩ := hp pr rfl
      by_cases hb : selS ≤ pr.fromPos ∧ pr.toPos ≤ selE
      · simp [suggLoop, hb, suggLowerBound, h1]
      · simp [suggLoop, hb]
  | cons p ps ih =>
    by_cases ha : p.added = true
    · cases pending with
      | some pr =>
        obtain ⟨h1, h2⟩ := hp pr rfl
        have ihT := ih pos (ctr + 1) none (by intro x hx; cases hx)
        have ihT' := ih pos ctr none (by intro x hx; cases hx)
        by_cases hb : selS ≤ pr.fromPos ∧ pr.toPos ≤ selE
        · simp only [suggLoop, if_pos ha, if_pos hb]
          constructor
          · intro s hs
            rcases List.mem_cons.1 hs with hs | hs
            · subst hs
              exact ⟨h1, le_refl _⟩
            · obtain ⟨hs1, hs2⟩ := (ihT.1 s hs)
              refine ⟨hs1, le_trans h1 ?_⟩
              rw [h2]
              simpa [suggLowerBound] using hs2
          · rw [List.pairwise_cons]
            refine ⟨?_, ihT.2⟩
            intro b hb'
            have := (ihT.1 b hb').2
            simp only [suggLowerBound] at this
            simpa [h2] using this
        · simp only [suggLoop, if_pos ha, if_neg hb]
          constructor
          · intro s hs
            obtain ⟨hs1, hs2⟩ := ihT'.1 s hs
            refine ⟨hs1, le_trans h1 ?_⟩
            rw [h2]
            simpa [suggLowerBound] using hs2
          · exact ihT'.2
      | none =>
        have ihT := ih pos (ctr + 1) none (by intro x hx; cases hx)
        have ihT' := ih pos ctr none (by intro x hx; cases hx)
        by_cases hb : selS ≤ pos ∧ pos ≤ selE
        · simp only [suggLoop, if_pos ha, if_pos hb]
          constructor
          · intro s hs
            rcases List.mem_cons.1 hs with hs | hs
            · subst hs
              exact ⟨le_refl _, le_refl _⟩
            · obtain ⟨hs1, hs2⟩ := ihT.1 s hs
              exact ⟨hs1, by simpa [suggLowerBound] using hs2⟩
          · rw [List.pairwise_cons]
            refine ⟨?_, ihT.2⟩
            intro b hb'
            have := (ihT.1 b hb').2
            simpa [suggLowerBound] using this
        · simp only [suggLoop, if_pos ha, if_neg hb]
          constructor
          · intro s hs
            obtain ⟨hs1, hs2⟩ := ihT'.1 s hs
            exact ⟨hs1, by simpa [suggLowerBound] using hs2⟩
          · exact ihT'.2
    · by_cases hr : p.removed = true
      · cases pending with
        | some pr =>
          obtain ⟨h1, h2⟩ := hp pr rfl
          have hlen : (0 : Int) ≤ (p.value.length : Int) := Int.ofNat_nonneg _
          have ihT := ih (pos + p.value.length) ctr
            (some ⟨pr.text ++ p.value, pr.fromPos, pos + p.value.length⟩)
            (by
              intro x hx
              injection hx with hx
              subst hx
              constructor
              · show pr.fromPos ≤ pos + (p.value.length : Int)
                omega
              · rfl)
          simp only [suggLoop, if_neg ha, if_pos hr]
          constructor
          · intro s hs
            obtain ⟨hs1, hs2⟩ := ihT.1 s hs
            exact ⟨hs1, by simpa [suggLowerBound] using hs2⟩
          · exact ihT.2
        | none =>
          have hlen : (0 : Int) ≤ (p.value.length : Int) := Int.ofNat_nonneg _
          have ihT := ih (pos + p.value.length) ctr
            (some ⟨p.value, pos, pos + p.value.length⟩)
            (by
              intro x hx
              injection hx with hx
              subst hx
              exact ⟨by show pos ≤ pos + (p.value.length : Int); omega, rfl⟩)
          simp only [suggLoop, if_neg ha, if_pos hr]
          constructor
          · intro s hs
            obtain ⟨hs1, hs2⟩ := ihT.1 s hs
            exact ⟨hs1, by simpa [suggLowerBound] using hs2⟩
          · exact ihT.2
      · cases pending with
        | some pr =>
          obtain ⟨h1, h2⟩ := hp pr rfl
          have hlen : (0 : Int) ≤ (p.value.length : Int) := Int.ofNat_nonneg _
          have ihT := ih (pos + p.value.length) (ctr + 1) none (by intro x hx; cases hx)
          have ihT' := ih (pos + p.value.length) ctr none (by intro x hx; cases hx)
          by_cases hb : selS ≤ pr.fromPos ∧ pr.toPos ≤ selE
          · simp only [suggLoop, if_neg ha, if_neg hr, if_pos hb]
            constructor
            · intro s hs
              rcases List.mem_cons.1 hs with hs | hs
              · subst hs
                exact ⟨h1, le_refl _⟩
              · obtain ⟨hs1, hs2⟩ := ihT.1 s hs
                simp only [suggLowerBound] at hs2
                refine ⟨hs1, le_trans h1 ?_⟩
                rw [h2]
                omega
            · rw [List.pairwise_cons]
              refine ⟨?_, ihT.2⟩
              intro b hb'
              have := (ihT.1 b hb').2
              simp only [suggLowerBound] at this
              simp only [h2] at *
              omega
          · simp only [suggLoop, if_neg ha, if_neg hr, if_neg hb]
            constructor
            · intro s hs
              obtain ⟨hs1, hs2⟩ := ihT'.1 s hs
              simp only [suggLowerBound] at hs2
              refine ⟨hs1, le_trans h1 ?_⟩
              rw [h2]
              omega
            · exact ihT'.2
        | none =>
          have hlen : (0 : Int) ≤ (p.value.length : Int) := Int.ofNat_nonneg _
          have ihT := ih (pos + p.value.length) ctr none (by intro x hx; cases hx)
          simp only [suggLoop, if_neg ha, if_neg hr]
          constructor
          · intro s hs
            obtain ⟨hs1, hs2⟩ := ihT.1 s hs
            simp only [suggLowerBound] at hs2 ⊢
            exact ⟨hs1, by omega⟩
          · exact ihT.2

/-- C6: for every single `buildSuggestions` call, the returned ranges are
pairwise disjoint (each suggestion ends no later than the next begins), each
satisfies `from ≤ to`, and the sequence is sorted by `from` in document
order. -/
theorem buildSuggestions_ranges (originalText modifiedText : JText)
    (selectionStart selectionEnd : Int) :
    List.Pairwise (fun a b => a.toPos ≤ b.fromPos)
      (buildSuggestions originalText modifiedText selectionStart selectionEnd) ∧
    (buildSuggestions originalText modifiedText selectionStart selectionEnd).all
      (fun s => decide (s.fromPos ≤ s.toPos)) = true := by
  have h := suggLoop_bounds (diffLines originalText modifiedText)
    selectionStart selectionEnd selectionStart 0 none (by intro x hx; cases hx)
  constructor
  · exact List.Pairwise.sublist (List.filter_sublist _) h.2
  · rw [List.all_eq_true]
    intro s hs
    rw [buildSuggestions] at hs
    have := h.1 s (List.mem_filter.1 hs).1
    simpa using this.1

/-- C9: on identical texts, `buildSuggestions(t, t, 0, len(t))` is empty and
the segmenter yields a single context segment covering the whole text. -/
theorem identity_diff_no_edits (t : JText) :
    buildSuggestions t t 0 (t.length : Int) = [] ∧
    buildSegments t t = [⟨.context, t, t, true⟩] := by
  have hd := diffLines_self t
  constructor
  · rw [buildSuggestions, hd]
    simp [suggLoop]
  · rw [buildSegments, hd]
    simp [segLoop]

theorem checkAndResolve_doc (es : EditorSession) :
    (checkAndResolveOp es).1.doc = es.doc := by
  rw [checkAndResolveOp]
  split <;> rfl

theorem checkAndResolve_field (es : EditorSession) :
    (checkAndResolveOp es).1.field = es.field := by
  rw [checkAndResolveOp]
  split <;> rfl

theorem mapPos_mono (c : ChangeSpec) (hc : c.cFrom ≤ c.cTo) {p q : Int}
    (hpq : p ≤ q) : mapPos c p ≤ mapPos c q := by
  have hlen : (0 : Int) ≤ (c.insert.length : Int) := Int.ofNat_nonneg _
  unfold mapPos
  split_ifs <;> omega

theorem mapPosThrough_mono (cs : List ChangeSpec)
    (hc : ∀ c ∈ cs, c.cFrom ≤ c.cTo) {p q : Int} (hpq : p ≤ q) :
    mapPosThrough cs p ≤ mapPosThrough cs q := by
  induction cs generalizing p q with
  | nil => simpa [mapPosThrough]
  | cons c cs ih =>
    simp only [mapPosThrough, List.foldl_cons] at *
    exact ih (fun d hd => hc d (by simp [hd])) (mapPos_mono c (hc c (by simp)) hpq)

theorem remapSuggestions_id (l : List InlineSuggestion) (cs : List ChangeSpec)
    (d : Int) : ∀ s' ∈ remapSuggestions l cs d, ∃ s ∈ l, s'.id = s.id := by
  intro s' hs'
  rw [remapSuggestions] at hs'
  obtain ⟨s, hm, hf⟩ := List.mem_filterMap.1 hs'
  refine ⟨s, hm, ?_⟩
  dsimp only at hf
  split at hf
  · exact absurd hf (by simp)
  · injection hf with hf
    subst hf
    rfl

/-- C2: for a document-changing transaction over well-formed changes,
starting from suggestions satisfying `0 ≤ from ≤ to ≤ oldLength`, every
suggestion surviving the remap again satisfies
`0 ≤ from ≤ to ≤ newDocLength`, and its endpoints are exactly the mapped
endpoints of a previously live suggestion (dropped, never clamped). -/
theorem remapSuggestions_invariant (suggs : List InlineSuggestion)
    (cs : List ChangeSpec) (oldLength newDocLength : Int)
    (hc : ∀ c ∈ cs, c.cFrom ≤ c.cTo)
    (hs : ∀ s ∈ suggs, 0 ≤ s.fromPos ∧ s.fromPos ≤ s.toPos ∧ s.toPos ≤ oldLength) :
    ∀ s' ∈ remapSuggestions suggs cs newDocLength,
      (0 ≤ s'.fromPos ∧ s'.fromPos ≤ s'.toPos ∧ s'.toPos ≤ newDocLength) ∧
      ∃ s ∈ suggs, s'.id = s.id ∧ s'.fromPos = mapPosThrough cs s.fromPos ∧
        s'.toPos = mapPosThrough cs s.toPos := by
  intro s' hs'
  rw [remapSuggestions] at hs'
  obtain ⟨s, hm, hf⟩ := List.mem_filterMap.1 hs'
  dsimp only at hf
  split at hf
  · exact absurd hf (by simp)
  · rename_i hok
    injection hf with hf
    subst hf
    push_neg at hok
    obtain ⟨h0, h1, h2, h3⟩ := hok
    have hmono : mapPosThrough cs s.fromPos ≤ mapPosThrough cs s.toPos :=
      mapPosThrough_mono cs hc (hs s hm).2.1
    exact ⟨⟨by simpa using h0, by simpa using hmono, by simpa using h3⟩,
      s, hm, rfl, rfl, rfl⟩

theorem remapSuggestions_invariant_witness :
    0 ≤ wRemapped.fromPos ∧ wRemapped.fromPos ≤ wRemapped.toPos ∧
      wRemapped.toPos ≤ 2 :=
  ((remapSuggestions_invariant wSuggs wChanges 1 2
    (by decide) (by decide)) wRemapped (by decide)).1

/-- C3: when the suggestion with the given id exists, `acceptSuggestion`
either (a) on validation failure behaves exactly as `rejectSuggestion`
(document untouched, suggestion removed), or (b) on success replaces
`[from, to)` by the suggested text as the transaction's single edit and
removes the suggestion from the live set. -/
theorem acceptSuggestion_spec (es : EditorSession) (id : String)
    (sugg : InlineSuggestion)
    (hfind : es.field.suggestions.find? (fun s => s.id = id) = some sugg) :
    ((sugg.fromPos < 0 ∨ sugg.toPos < 0 ∨ sugg.fromPos > (es.doc.length : Int) ∨
        sugg.toPos > (es.doc.length : Int) ∨ sugg.fromPos > sugg.toPos) →
      acceptSuggestionOp es id = rejectSuggestionOp es id ∧
      (acceptSuggestionOp es id).1.doc = es.doc ∧
      ∀ s' ∈ (acceptSuggestionOp es id).1.field.suggestions, s'.id ≠ id) ∧
    (¬(sugg.fromPos < 0 ∨ sugg.toPos < 0 ∨ sugg.fromPos > (es.doc.length : Int) ∨
        sugg.toPos > (es.doc.length : Int) ∨ sugg.fromPos > sugg.toPos) →
      (acceptSuggestionOp es id).1.doc =
        es.doc.take sugg.fromPos.toNat ++ sugg.suggestedText ++
          es.doc.drop sugg.toPos.toNat ∧
      ∀ s' ∈ (acceptSuggestionOp es id).1.field.suggestions, s'.id ≠ id) := by
  constructor
  · intro hval
    have hop : acceptSuggestionOp es id =
        checkAndResolveOp (dispatchTr es [] [.reject id]) := by
      rw [acceptSuggestionOp, hfind]
      dsimp only
      rw [if_pos hval]
    refine ⟨hop, ?_, ?_⟩
    · rw [hop, checkAndResolve_doc]
      rfl
    · intro s' hs'
      rw [hop, checkAndResolve_field] at hs'
      simp only [dispatchTr, updateField, List.foldl_cons, List.foldl_nil,
        applyEffect] at hs'
      simp only [List.isEmpty_nil, true_or, if_true] at hs'
      simpa using (List.mem_filter.1 hs').2
  · intro hval
    have hop : acceptSuggestionOp es id =
        checkAndResolveOp
          (dispatchTr es [⟨sugg.fromPos, sugg.toPos, sugg.suggestedText⟩]
            [.accept id]) := by
      rw [acceptSuggestionOp, hfind]
      dsimp only
      rw [if_neg hval]
    constructor
    · rw [hop, checkAndResolve_doc]
      simp [dispatchTr, applyChanges, applyChange]
    · intro s' hs'
      rw [hop, checkAndResolve_field] at hs'
      simp only [dispatchTr, updateField, List.foldl_cons, List.foldl_nil,
        applyEffect] at hs'
      set base := es.field.suggestions.filter (fun s => s.id ≠ id) with hbase
      by_cases hemp : base.isEmpty
      · rw [if_pos (Or.inr (by simpa using hemp))] at hs'
        rw [List.isEmpty_iff] at hemp
        simp only [hemp] at hs'
        simp at hs'
      · rw [if_neg (by simp [hemp])] at hs'
        obtain ⟨s, hsmem, hid⟩ := remapSuggestions_id _ _ _ s' hs'
        rw [hid]
        simpa using (List.mem_filter.1 hsmem).2

theorem acceptSuggestion_spec_witness :
    (acceptSuggestionOp sampleSession "suggestion-0").1.doc =
      ['a', 'b', 'c'].take 1 ++ ['x', 'y'] ++ ['a', 'b', 'c'].drop 2 :=
  (((acceptSuggestion_spec sampleSession "suggestion-0" sampleSuggestion
    (by decide)).2 (by decide)).1).trans (by decide)

/-- C4: `acceptAllSuggestions` keeps only the in-bounds suggestions, applies
their replacements as one transaction ordered from highest `from` to
lowest, clears the live set (and the registered callback) atomically with
the edit, and, when a title is pending, resolves with `renameTo` equal to
the proposed title and `text` equal to the resulting document. -/
theorem acceptAll_spec (es : EditorSession)
    (hcb : es.field.resolveCallback = true) :
    (acceptAllSuggestionsOp es).1.field.suggestions = [] ∧
    (acceptAllSuggestionsOp es).1.field.resolveCallback = false ∧
    (acceptAllSuggestionsOp es).1.doc =
      applyChanges es.doc
        ((sortDescByFrom
            (es.field.suggestions.filter (validForDoc (es.doc.length : Int)))).map
          fun s => ChangeSpec.mk s.fromPos s.toPos s.suggestedText) ∧
    (∀ t, es.field.proposedTitle = some t →
      (acceptAllSuggestionsOp es).2 =
        [some ⟨(acceptAllSuggestionsOp es).1.doc, some t⟩]) := by
  have hfield : ∀ (cs : List ChangeSpec) (L : Int),
      updateField es.field [.acceptAllE] cs L = ⟨[], none, none, false⟩ := by
    intro cs L
    simp [updateField, applyEffect]
  refine ⟨?_, ?_, ?_, ?_⟩
  · simp only [acceptAllSuggestionsOp]
    cases ht : es.field.proposedTitle <;>
      simp only [ht, dispatchTr] <;> rw [hfield _ _]
  · simp only [acceptAllSuggestionsOp]
    cases ht : es.field.proposedTitle <;>
      simp only [ht, dispatchTr] <;> rw [hfield _ _]
  · simp only [acceptAllSuggestionsOp]
    cases ht : es.field.proposedTitle <;> simp only [ht, dispatchTr]
  · intro t ht
    simp only [acceptAllSuggestionsOp, ht, hcb, dispatchTr]
    simp

theorem acceptAll_spec_witness :
    (acceptAllSuggestionsOp sampleTitledSession).1.field.suggestions = [] ∧
    (acceptAllSuggestionsOp sampleTitledSession).2 =
      [some ⟨['a', 'x', 'y', 'c'], some ['T']⟩] := by
  have h := acceptAll_spec sampleTitledSession (by decide)
  refine ⟨h.1, ?_⟩
  have h4 := h.2.2.2 ['T'] (by decide)
  rw [h4]
  have hdoc := h.2.2.1
  rw [hdoc]
  decide

/-- C1 (code bug): `checkAndResolve` never clears the resolve callback from
the state field, so after the live set empties via `rejectOne`, a repeated
`rejectOne` on the already-removed id invokes the callback a second time.
The run below drives one suggestion to empty and then repeats the
rejection: the callback fires twice, and after the first resolution the
callback is still registered. -/
theorem rejectOne_twice_fires_callback_twice :
    (runOps sampleSession
        [.rejectOne "suggestion-0", .rejectOne "suggestion-0"]).2 =
      [some ⟨['a', 'b', 'c'], none⟩, some ⟨['a', 'b', 'c'], none⟩] ∧
    (runOps sampleSession [.rejectOne "suggestion-0"]).1.field.resolveCallback =
      true := by
  decide

/-- C7 (code bug): `clearSuggestions` (the dismiss path) dispatches only the
clear-all effect: the callback is discarded from the state without ever
being invoked, so the outcome promise is left unresolved — while
`rejectAllSuggestions` does resolve `null` exactly once with no document
mutation. -/
theorem clearSuggestions_leaves_promise_unresolved :
    (clearSuggestionsOp sampleSession).2 = [] ∧
    (clearSuggestionsOp sampleSession).1.field.resolveCallback = false ∧
    (rejectAllSuggestionsOp sampleSession).2 = [none] ∧
    (rejectAllSuggestionsOp sampleSession).1.doc = sampleSession.doc := by
  decide

theorem dropWhile_dropWhile (p : Char → Bool) (l : List Char) :
    List.dropWhile p (List.dropWhile p l) = List.dropWhile p l := by
  induction l with
  | nil => rfl
  | cons a l ih =>
    by_cases h : p a
    · simp [List.dropWhile_cons, h, ih]
    · simp [List.dropWhile_cons, h]

theorem dropWhile_head_false (p : Char → Bool) (l : List Char) (a : Char)
    (r : List Char) (h : List.dropWhile p l = a :: r) : p a = false := by
  induction l with
  | nil => simp at h
  | cons b l ih =>
    by_cases hb : p b
    · rw [List.dropWhile_cons, if_pos hb] at h
      exact ih h
    · rw [List.dropWhile_cons, if_neg hb] at h
      injection h with h1 _
      subst h1
      simpa using hb

theorem jsTrim_prefix_dropWhile (t : JText) :
    jsTrim t <+: List.dropWhile isJsWhitespace t := by
  have h : List.dropWhile isJsWhitespace
      ((List.dropWhile isJsWhitespace t).reverse) <:+
      (List.dropWhile isJsWhitespace t).reverse := List.dropWhile_suffix _
  have h2 := List.reverse_prefix.2 h
  simpa [jsTrim] using h2

theorem jsTrim_left_clean (t : JText) :
    List.dropWhile isJsWhitespace (jsTrim t) = jsTrim t := by
  cases hj : jsTrim t with
  | nil => simp
  | cons a r =>
    have hpre := jsTrim_prefix_dropWhile t
    rw [hj] at hpre
    obtain ⟨rest, hrest⟩ := hpre
    have hhead : List.dropWhile isJsWhitespace t = a :: (r ++ rest) := by
      rw [← hrest]
      simp
    have hfa := dropWhile_head_false isJsWhitespace t a (r ++ rest) hhead
    rw [List.dropWhile_cons, if_neg (by simp [hfa])]

theorem jsTrim_idem (t : JText) : jsTrim (jsTrim t) = jsTrim t := by
  have h1 := jsTrim_left_clean t
  rw [jsTrim, h1]
  rw [show (jsTrim t).reverse =
      List.dropWhile isJsWhitespace ((List.dropWhile isJsWhitespace t).reverse) by
    rw [jsTrim, List.reverse_reverse]]
  rw [dropWhile_dropWhile]
  rw [jsTrim]

/-- C10 counterexample: in the modal, a proposed title EQUAL to the current
title is kept (as its trimmed form) whenever the shared value carries
surrounding whitespace, because the equality guard compares the trimmed
proposal against the untrimmed current title — the session then begins with
a title pending, contradicting the claim. -/
theorem modalProposedTitle_keeps_equal_title :
    modalProposedTitle (some [' ', 'X', ' ']) (some [' ', 'X', ' ']) =
      some ['X'] := by
  decide

/-- C10 amended: both front-ends discard an empty/whitespace-only proposal;
the inline view discards a proposal whose trimmed form equals the trimmed
current title; the modal discards one whose trimmed form equals the current
title verbatim; and in both, a surviving proposal (hence any `renameTo`)
never equals the current title. -/
theorem title_filters_amended :
    (∀ p c, jsTrim p = [] →
      effectiveProposedTitle (some p) c = none ∧
      modalProposedTitle (some p) c = none) ∧
    (∀ p c, jsTrim p = jsTrim c →
      effectiveProposedTitle (some p) (some c) = none) ∧
    (∀ p c, jsTrim p = c → modalProposedTitle (some p) (some c) = none) ∧
    (∀ p c t, effectiveProposedTitle (some p) (some c) = some t → t ≠ c) ∧
    (∀ p c t, modalProposedTitle (some p) (some c) = some t → t ≠ c) := by
  refine ⟨?_, ?_, ?_, ?_, ?_⟩
  · intro p c hp
    constructor
    · rw [effectiveProposedTitle]
      by_cases h0 : p = []
      · rw [if_pos h0]
      · rw [if_neg h0, if_pos hp]
    · have hb : modalBase (some p) = none := by
        rw [modalBase]
        by_cases h0 : p = []
        · rw [if_pos h0]
        · rw [if_neg h0, if_pos hp]
      simp [modalProposedTitle, hb]
  · intro p c hp
    rw [effectiveProposedTitle]
    by_cases h0 : p = []
    · rw [if_pos h0]
    · rw [if_neg h0]
      by_cases h1 : jsTrim p = []
      · rw [if_pos h1]
      · rw [if_neg h1, if_pos (by simp [hp])]
  · intro p c hp
    by_cases h0 : p = []
    · have hb : modalBase (some p) = none := by rw [modalBase, if_pos h0]
      simp [modalProposedTitle, hb]
    · by_cases h1 : jsTrim p = []
      · have hb : modalBase (some p) = none := by
          rw [modalBase, if_neg h0, if_pos h1]
        simp [modalProposedTitle, hb]
      · have hb : modalBase (some p) = some (jsTrim p) := by
          rw [modalBase, if_neg h0, if_neg h1]
        have hc : ¬(c = []) := by rw [← hp]; exact h1
        simp [modalProposedTitle, hb, hc, hp]
  · intro p c t ht heq
    rw [effectiveProposedTitle] at ht
    by_cases h0 : p = []
    · rw [if_pos h0] at ht; exact absurd ht (by simp)
    · rw [if_neg h0] at ht
      by_cases h1 : jsTrim p = []
      · rw [if_pos h1] at ht; exact absurd ht (by simp)
      · rw [if_neg h1] at ht
        by_cases h2 : (some c).map jsTrim = some (jsTrim p)
        · rw [if_pos h2] at ht; exact absurd ht (by simp)
        · rw [if_neg h2] at ht
          injection ht with ht
          apply h2
          have hct : jsTrim c = jsTrim p := by
            rw [← heq, ← ht, jsTrim_idem]
          simp [hct]
  · intro p c t ht heq
    by_cases h0 : p = []
    · have hb : modalBase (some p) = none := by rw [modalBase, if_pos h0]
      simp [modalProposedTitle, hb] at ht
    · by_cases h1 : jsTrim p = []
      · have hb : modalBase (some p) = none := by
          rw [modalBase, if_neg h0, if_pos h1]
        simp [modalProposedTitle, hb] at ht
      · have hb : modalBase (some p) = some (jsTrim p) := by
          rw [modalBase, if_neg h0, if_neg h1]
        by_cases hc : c = []
        · simp [modalProposedTitle, hb, hc] at ht
          exact h1 (ht.trans (heq.trans hc))
        · by_cases hpc : jsTrim p = c
          · simp [modalProposedTitle, hb, hc, hpc] at ht
          · simp [modalProposedTitle, hb, hc, hpc] at ht
            exact hpc (ht.trans heq)

theorem title_filters_amended_witness :
    effectiveProposedTitle (some [' ']) (some ['Y']) = none ∧
    modalProposedTitle (some ['X', ' ']) (some ['X']) = none := by
  constructor
  · exact (title_filters_amended.1 [' '] (some ['Y']) (by decide)).1
  · exact title_filters_amended.2.2.1 ['X', ' '] ['X'] (by decide)
